import Mathlib

/-!
# Verification of the reno system-dynamics engine specification

The repository defines system-dynamics models (stocks, flows, variables,
metrics connected by equations), simulates them over discrete time steps,
and offers an interactive explorer UI over runs.

The expression-graph / simulation core (`reno/model.py`, `reno/components.py`,
`reno/ops.py`) is not part of the provided sources, so it is modelled here
from the specification; the explorer components (`reno/explorer.py`) are
embedded directly from the source.
-/

namespace Reno

/-- Modelled from the spec (§4.1): immutable expression tree whose leaves are
references (by qualified name), literal constants, or the time reference;
interior nodes are the arithmetic operators needed by the claims, plus
`repeated_pulse(start, interval)` with its fixed magnitude (modelled as 1). -/
inductive Expr where
  | const : ℤ → Expr
  | ref : String → Expr
  | time : Expr
  | add : Expr → Expr → Expr
  | sub : Expr → Expr → Expr
  | mul : Expr → Expr → Expr
  | minE : Expr → Expr → Expr
  | maxE : Expr → Expr → Expr
  | pulse : Expr → Expr → Expr
deriving DecidableEq

/-- Modelled from the spec (§3): kinds of references.  A Stock carries an
initial value and the names of its registered inflow and outflow Flows
(wiring via `>>`/`+=`/`-=`); a Flow carries optional `min`/`max` clamp bounds,
themselves expressions re-evaluated every step; a Variable is a derived
quantity. -/
inductive RKind where
  | stock : ℤ → List String → List String → RKind
  | flow : Option Expr → Option Expr → RKind
  | var : RKind
deriving DecidableEq

/-- Modelled from the spec (§3): a Reference is a named, typed slot holding an
equation (for a Stock the equation is unused: its value is carried over by the
stepper). -/
structure Ref where
  name : String
  kind : RKind
  eq : Expr
  doc : String := ""
deriving DecidableEq

/-- Modelled from the spec (§4.2): a Model is a namespace of References; nested
sub-models are represented flattened, with qualified names. -/
structure Model where
  refs : List Ref
deriving DecidableEq

/-- Look a reference up by qualified name (first match, as in a namespace). -/
def Model.findRef (m : Model) (n : String) : Option Ref :=
  m.refs.find? (fun r => r.name = n)

/-- Modelled from the spec (§4.1): `repeated_pulse(start, interval)` returns a
fixed magnitude (1) when `(t - start) mod interval == 0`, else 0.  The zero
test of a remainder does not depend on the sign convention of `mod`: it holds
exactly when `interval` divides `t - start`. -/
def pulseVal (t s i : ℤ) : ℤ :=
  if (t - s) % i = 0 then 1 else 0

/-- Modelled from the spec (§3): a Flow with `min`/`max` is clamped to
`[min, max]` after evaluating its raw equation (raise to `min`, then cap at
`max`, as a numeric clip does). -/
def clamp (v : ℤ) (lo hi : Option ℤ) : ℤ :=
  let v1 := match lo with
    | some l => max v l
    | none => v
  match hi with
  | some h => min v1 h
  | none => v1

/-- Modelled from the spec (§4.1): shared recursive evaluator for expression
trees; `env` supplies the current value of every referenced quantity and `t`
is the current step (`TimeRef` evaluates to `t` itself). -/
def evalExpr (env : String → ℤ) (t : ℕ) : Expr → ℤ
  | .const q => q
  | .ref n => env n
  | .time => (t : ℤ)
  | .add a b => evalExpr env t a + evalExpr env t b
  | .sub a b => evalExpr env t a - evalExpr env t b
  | .mul a b => evalExpr env t a * evalExpr env t b
  | .minE a b => min (evalExpr env t a) (evalExpr env t b)
  | .maxE a b => max (evalExpr env t a) (evalExpr env t b)
  | .pulse s i => pulseVal (t : ℤ) (evalExpr env t s) (evalExpr env t i)

/-- Modelled from the spec (§4.3/§4.4): the value of a reference at step `t`
given the current stock values.  Stocks read their carried-over value; Flows
evaluate their raw equation and are then clamped to their re-evaluated
bounds; Variables evaluate their equation.  `fuel` bounds the depth of
reference-to-reference chains (the resolver guarantees acyclicity, so any
fuel larger than the number of references is exact). -/
def refValue (m : Model) (stocks : String → ℤ) (t : ℕ) : ℕ → String → ℤ
  | 0, _ => 0
  | fuel + 1, n =>
    match m.findRef n with
    | none => 0
    | some r =>
      match r.kind with
      | .stock _ _ _ => stocks n
      | .flow lo hi =>
          clamp (evalExpr (refValue m stocks t fuel) t r.eq)
            (lo.map (evalExpr (refValue m stocks t fuel) t))
            (hi.map (evalExpr (refValue m stocks t fuel) t))
      | .var => evalExpr (refValue m stocks t fuel) t r.eq

/-- Sum of a list of values. -/
def qsum : List ℤ → ℤ
  | [] => 0
  | x :: xs => x + qsum xs

/-- Modelled from the spec (§4.4): stock values at each step.  At `t = 0` a
Stock holds its `init`; thereafter `value[t+1] = value[t] + Σ inflows[t] − Σ
outflows[t]`, where the flows are evaluated (and clamped) at step `t` against
the step-`t` stock values — the stock-feedback carry-over. -/
def stocksAt (m : Model) : ℕ → String → ℤ
  | 0, n =>
    match m.findRef n with
    | some r =>
      match r.kind with
      | .stock init _ _ => init
      | _ => 0
    | none => 0
  | t + 1, n =>
    match m.findRef n with
    | some r =>
      match r.kind with
      | .stock _ ins outs =>
          stocksAt m t n
            + qsum (ins.map (refValue m (stocksAt m t) t (m.refs.length + 1)))
            - qsum (outs.map (refValue m (stocksAt m t) t (m.refs.length + 1)))
      | _ => 0
    | none => 0

/-- Modelled from the spec (§4.4): the recorded value of reference `n` at step
`t` of a run: stocks record their carried value, non-stocks evaluate against
the step-`t` stock values. -/
def valueAt (m : Model) (n : String) (t : ℕ) : ℤ :=
  refValue m (stocksAt m t) t (m.refs.length + 1) n

/-- Modelled from the spec (§4.4): the full recorded time series of reference
`n` over a run of `steps` steps — one value for each `t` in `0..steps`. -/
def seriesOf (m : Model) (n : String) (steps : ℕ) : List ℤ :=
  (List.range (steps + 1)).map (fun t => valueAt m n t)

/-- The concrete scenario of the spec's §8 example: a single Stock `level`
with init 0, an inflow Flow `in` constantly 5, and an outflow Flow `out`
equal to `min(level, 2)`. -/
def c1Model : Model :=
  { refs :=
      [ { name := "level", kind := .stock 0 ["in"] ["out"], eq := .const 0 },
        { name := "in", kind := .flow none none, eq := .const 5 },
        { name := "out", kind := .flow none none,
          eq := .minE (.ref "level") (.const 2) } ] }

/-- A Stock's recorded value at `t = 0` is its `init`, and each later recorded
value adds the inflows and subtracts the outflows evaluated at the previous
step (against the previous step's stock values). -/
theorem stock_step (m : Model) (n : String) (r : Ref) (i0 : ℤ)
    (ins outs : List String) (t : ℕ)
    (h : m.findRef n = some r) (hk : r.kind = .stock i0 ins outs) :
    valueAt m n 0 = i0 ∧
    valueAt m n (t + 1) = valueAt m n t
      + qsum (ins.map (fun f => valueAt m f t))
      - qsum (outs.map (fun f => valueAt m f t)) := by
  constructor
  · simp [valueAt, refValue, stocksAt, h, hk]
  · simp [valueAt, refValue, stocksAt, h, hk]

/-- C1: the claimed time series are exactly what the engine records for the
single-stock scenario, but the claimed per-step update law
`value[t] = value[t-1] + Σ inflows[t] − Σ outflows[t]` fails on those very
series at `t = 1`: the recorded `level[1]` is `5`, while
`level[0] + in[1] − out[1] = 0 + 5 − 2 = 3`.  The flows feeding the update
that produces `value[t]` are the ones recorded at `t − 1`. -/
theorem c1_counterexample :
    seriesOf c1Model "level" 5 = [0, 5, 8, 11, 14, 17] ∧
    seriesOf c1Model "out" 5 = [0, 2, 2, 2, 2, 2] ∧
    seriesOf c1Model "in" 5 = [5, 5, 5, 5, 5, 5] ∧
    ¬ (valueAt c1Model "level" 1 =
        valueAt c1Model "level" 0
          + valueAt c1Model "in" 1 - valueAt c1Model "out" 1) := by
  refine ⟨by decide, by decide, by decide, by decide⟩

/-- C1 (amended): simulating the single-stock scenario for 5 steps records
exactly `level = [0,5,8,11,14,17]` and `out = [0,2,2,2,2,2]`, and in general a
Stock is updated per step by `value[t] = value[t-1] + Σ inflows[t-1] − Σ
outflows[t-1]` (the flows evaluated at the previous step against that step's
stock values), with `value[0] = init`. -/
theorem c1_amended :
    seriesOf c1Model "level" 5 = [0, 5, 8, 11, 14, 17] ∧
    seriesOf c1Model "out" 5 = [0, 2, 2, 2, 2, 2] ∧
    (∀ (m : Model) (n : String) (r : Ref) (i0 : ℤ)
        (ins outs : List String) (t : ℕ),
      m.findRef n = some r → r.kind = .stock i0 ins outs →
      valueAt m n 0 = i0 ∧
      valueAt m n (t + 1) = valueAt m n t
        + qsum (ins.map (fun f => valueAt m f t))
        - qsum (outs.map (fun f => valueAt m f t))) :=
  ⟨by decide, by decide,
    fun m n r i0 ins outs t h hk => stock_step m n r i0 ins outs t h hk⟩

/-- C1 witness: the amended update law, instantiated on the concrete scenario
at `t = 1`: `level[2] = level[1] + in[1] − out[1] = 5 + 5 − 2 = 8`. -/
theorem c1_amended_witness :
    valueAt c1Model "level" 0 = 0 ∧
    valueAt c1Model "level" 2 = valueAt c1Model "level" 1
      + qsum (["in"].map (fun f => valueAt c1Model f 1))
      - qsum (["out"].map (fun f => valueAt c1Model f 1)) :=
  c1_amended.2.2 c1Model "level"
    { name := "level", kind := .stock 0 ["in"] ["out"], eq := .const 0 }
    0 ["in"] ["out"] 1 (by decide) (by decide)

/-- The value of a Flow's `min`/`max` bound expression as re-evaluated at step
`t` of a run — exactly the value the clamp compares against when the Flow's
recorded value at `t` is produced. -/
def boundValAt (m : Model) (e : Expr) (t : ℕ) : ℤ :=
  evalExpr (refValue m (stocksAt m t) t m.refs.length) t e

/-- The clamped value lies in `[lo, hi]` whenever `lo ≤ hi`. -/
theorem clamp_mem (v lo hi : ℤ) (hlh : lo ≤ hi) :
    lo ≤ clamp v (some lo) (some hi) ∧ clamp v (some lo) (some hi) ≤ hi := by
  simp only [clamp]
  omega

/-- The clamped value respects a lone `min` bound. -/
theorem clamp_min (v lo : ℤ) : lo ≤ clamp v (some lo) none := by
  simp only [clamp]
  omega

/-- The clamped value respects a lone `max` bound. -/
theorem clamp_max (v hi : ℤ) : clamp v none (some hi) ≤ hi := by
  simp only [clamp]
  omega

/-- A model whose single Flow has crossed bounds: `min = 1`, `max = 0`. -/
def c2Model : Model :=
  { refs :=
      [ { name := "f", kind := .flow (some (.const 1)) (some (.const 0)),
          eq := .const 5 } ] }

/-- C2: with both bounds configured but crossed (`min(t) = 1 > 0 = max(t)`),
the recorded Flow value (here `0`: the raw value raised to `min`, then capped
at `max`) cannot lie in the empty interval `[1, 0]`, so the claim fails as
stated. -/
theorem c2_counterexample :
    c2Model.findRef "f" =
      some { name := "f", kind := .flow (some (.const 1)) (some (.const 0)),
             eq := .const 5 } ∧
    boundValAt c2Model (.const 1) 0 = 1 ∧
    boundValAt c2Model (.const 0) 0 = 0 ∧
    ¬ (boundValAt c2Model (.const 1) 0 ≤ valueAt c2Model "f" 0 ∧
        valueAt c2Model "f" 0 ≤ boundValAt c2Model (.const 0) 0) := by
  refine ⟨by decide, by decide, by decide, by decide⟩

/-- C2 (amended): for every Flow and every step `t` of a run, the recorded
value lies within the re-evaluated bounds: with both bounds configured it lies
in `[min(t), max(t)]` provided `min(t) ≤ max(t)` (the clamp is applied after
evaluating the raw equation and before the value is used anywhere, so the
recorded value is the clamped one); with a lone `min` (resp. `max`) bound the
corresponding one-sided inequality holds unconditionally. -/
theorem c2_amended :
    (∀ (m : Model) (t : ℕ) (n : String) (r : Ref) (loE hiE : Expr),
      m.findRef n = some r → r.kind = .flow (some loE) (some hiE) →
      boundValAt m loE t ≤ boundValAt m hiE t →
      boundValAt m loE t ≤ valueAt m n t ∧
        valueAt m n t ≤ boundValAt m hiE t) ∧
    (∀ (m : Model) (t : ℕ) (n : String) (r : Ref) (loE : Expr),
      m.findRef n = some r → r.kind = .flow (some loE) none →
      boundValAt m loE t ≤ valueAt m n t) ∧
    (∀ (m : Model) (t : ℕ) (n : String) (r : Ref) (hiE : Expr),
      m.findRef n = some r → r.kind = .flow none (some hiE) →
      valueAt m n t ≤ boundValAt m hiE t) := by
  refine ⟨fun m t n r loE hiE h hk hle => ?_,
          fun m t n r loE h hk => ?_,
          fun m t n r hiE h hk => ?_⟩
  · simpa [valueAt, refValue, h, hk, boundValAt] using
      clamp_mem (evalExpr (refValue m (stocksAt m t) t m.refs.length) t r.eq)
        (boundValAt m loE t) (boundValAt m hiE t) hle
  · simpa [valueAt, refValue, h, hk, boundValAt] using
      clamp_min (evalExpr (refValue m (stocksAt m t) t m.refs.length) t r.eq)
        (boundValAt m loE t)
  · simpa [valueAt, refValue, h, hk, boundValAt] using
      clamp_max (evalExpr (refValue m (stocksAt m t) t m.refs.length) t r.eq)
        (boundValAt m hiE t)

/-- A tub-like model: Stock `level` (init 5) filled by Flow `fill = 3` and
drained by Flow `drain` with raw equation 9, clamped to `[0, level]` — the
max bound is a live Stock reference re-evaluated every step. -/
def c2WitnessModel : Model :=
  { refs :=
      [ { name := "level", kind := .stock 5 ["fill"] ["drain"], eq := .const 0 },
        { name := "fill", kind := .flow none none, eq := .const 3 },
        { name := "drain", kind := .flow (some (.const 0)) (some (.ref "level")),
          eq := .const 9 } ] }

/-- C2 witness: in the tub-like model whose drain Flow has `min = 0` and
`max = level` (a live Stock reference), the recorded drain value at step 1
lies within the re-evaluated bounds. -/
theorem c2_amended_witness :
    boundValAt c2WitnessModel (.const 0) 1 ≤ valueAt c2WitnessModel "drain" 1 ∧
    valueAt c2WitnessModel "drain" 1 ≤ boundValAt c2WitnessModel (.ref "level") 1 :=
  c2_amended.1 c2WitnessModel 1 "drain"
    { name := "drain", kind := .flow (some (.const 0)) (some (.ref "level")),
      eq := .const 9 }
    (.const 0) (.ref "level") (by decide) (by decide) (by decide)

/-- The remainder test of `repeated_pulse` holds exactly when the interval
divides `t - start` over the integers; for `t ≥ start` that is exactly
membership in `{start, start + interval, start + 2·interval, …}`. -/
theorem pulseVal_eq_one_iff (t s i : ℕ) (hst : s ≤ t) :
    pulseVal (t : ℤ) (s : ℤ) (i : ℤ) = 1 ↔ ∃ k : ℕ, t = s + k * i := by
  have hd : ((t : ℤ) - (s : ℤ)) % (i : ℤ) = 0 ↔ (i : ℤ) ∣ ((t : ℤ) - (s : ℤ)) :=
    Int.dvd_iff_emod_eq_zero.symm
  constructor
  · intro h1
    simp only [pulseVal] at h1
    by_cases hc : ((t : ℤ) - (s : ℤ)) % (i : ℤ) = 0
    · obtain ⟨z, hz⟩ := hd.mp hc
      rcases Nat.eq_zero_or_pos i with hi | hi
      · subst hi
        refine ⟨0, ?_⟩
        simp only [Nat.cast_zero, zero_mul] at hz
        omega
      · have hz0 : 0 ≤ z := by
          by_contra hneg
          push_neg at hneg
          have : (i : ℤ) * z < 0 :=
            mul_neg_of_pos_of_neg (by exact_mod_cast hi) hneg
          omega
        refine ⟨z.toNat, ?_⟩
        have hzz : ((z.toNat : ℕ) : ℤ) = z := Int.toNat_of_nonneg hz0
        have hgoal : (t : ℤ) = (s : ℤ) + (z.toNat : ℤ) * (i : ℤ) := by
          rw [hzz]
          linear_combination hz
        exact_mod_cast hgoal
    · simp [pulseVal, hc] at h1
  · rintro ⟨k, rfl⟩
    have hc : ((((s + k * i : ℕ)) : ℤ) - (s : ℤ)) % (i : ℤ) = 0 := by
      apply hd.mpr
      exact ⟨k, by push_cast; ring⟩
    simp [pulseVal, hc]

/-- The pulse only ever takes the values 1 and 0. -/
theorem pulseVal_eq_zero_of_ne_one (t s i : ℤ) (h : pulseVal t s i ≠ 1) :
    pulseVal t s i = 0 := by
  simp only [pulseVal] at h ⊢
  split <;> simp_all

/-- C3: `repeated_pulse` is not always zero before `start`: with `start = 4`,
`interval = 2`, at step `t = 0` (which is before the start and not of the form
`start + k·interval`) the pulse evaluates to its magnitude 1, because
`(0 - 4) mod 2 == 0`. -/
theorem c3_counterexample :
    evalExpr (fun _ => 0) 0 (Expr.pulse (.const 4) (.const 2)) = 1 ∧
    (∀ k : ℕ, (0 : ℕ) ≠ 4 + k * 2) := by
  refine ⟨by decide, fun k => by omega⟩

/-- C3 (amended): for every start, interval, and step `t ≥ start`,
`repeated_pulse(start, interval)` evaluates to its fixed nonzero magnitude
(1) exactly when `t` is one of `start, start+interval, start+2·interval, …`
(equivalently when `(t - start) mod interval == 0`), and evaluates to 0 at
every other `t ≥ start`.  (Before `start` it is also nonzero whenever
`interval` divides `start - t`.) -/
theorem c3_amended (env : String → ℤ) (t s i : ℕ) (hst : s ≤ t) :
    (evalExpr env t (Expr.pulse (.const s) (.const i)) = 1 ↔
      ∃ k : ℕ, t = s + k * i) ∧
    ((¬ ∃ k : ℕ, t = s + k * i) →
      evalExpr env t (Expr.pulse (.const s) (.const i)) = 0) := by
  have hmain : evalExpr env t (Expr.pulse (.const s) (.const i)) =
      pulseVal (t : ℤ) (s : ℤ) (i : ℤ) := rfl
  rw [hmain]
  refine ⟨pulseVal_eq_one_iff t s i hst, fun hne => ?_⟩
  exact pulseVal_eq_zero_of_ne_one _ _ _
    (fun h1 => hne ((pulseVal_eq_one_iff t s i hst).mp h1))

/-- C3 witness: with `start = 2`, `interval = 3`, the pulse fires at
`t = 8 = 2 + 2·3` and is 0 at `t = 7`. -/
theorem c3_amended_witness :
    evalExpr (fun _ => 0) 8 (Expr.pulse (.const 2) (.const 3)) = 1 ∧
    evalExpr (fun _ => 0) 7 (Expr.pulse (.const 2) (.const 3)) = 0 :=
  ⟨(c3_amended (fun _ => 0) 8 2 3 (by decide)).1.mpr ⟨2, by decide⟩,
    (c3_amended (fun _ => 0) 7 2 3 (by decide)).2 (by
      rintro ⟨k, hk⟩
      omega)⟩

/-- Python index normalisation: a negative index has the length added once. -/
def pyNorm (len : ℕ) (i : ℤ) : ℤ :=
  if i < 0 then i + len else i

/-- Modelled from the spec (§4.4): indexing a recorded time series with
Python-slice semantics — a negative index counts from the end (`-1` is the
last element), and an index out of range yields no value. -/
def pyIndex (xs : List ℤ) (i : ℤ) : Option ℤ :=
  if 0 ≤ pyNorm xs.length i ∧ pyNorm xs.length i < (xs.length : ℤ) then
    xs.get? (pyNorm xs.length i).toNat
  else none

/-- A completed run records one value for each `t` in `0..steps`. -/
theorem seriesOf_length (m : Model) (n : String) (steps : ℕ) :
    (seriesOf m n steps).length = steps + 1 := by
  simp [seriesOf]

/-- Position `t` of the recorded series holds the value recorded at step `t`. -/
theorem seriesOf_get (m : Model) (n : String) (steps t : ℕ)
    (h : t < (seriesOf m n steps).length) :
    (seriesOf m n steps).get ⟨t, h⟩ = valueAt m n t := by
  simp [seriesOf]

/-- C7: a completed run over `steps` steps records series of length
`steps + 1`, and negative indexing is end-relative: index `-k` (for
`1 ≤ k ≤ steps + 1`) yields the value recorded at `t = steps + 1 - k`; in
particular `-1` yields the value at `t = steps`. -/
theorem c7_negative_indexing (m : Model) (n : String) (steps k : ℕ)
    (hk1 : 1 ≤ k) (hk2 : k ≤ steps + 1) :
    (seriesOf m n steps).length = steps + 1 ∧
    pyIndex (seriesOf m n steps) (-(k : ℤ)) =
      some (valueAt m n (steps + 1 - k)) := by
  have hlen : (seriesOf m n steps).length = steps + 1 :=
    seriesOf_length m n steps
  refine ⟨hlen, ?_⟩
  have hnorm : pyNorm (steps + 1) (-(k : ℤ)) = ((steps + 1 - k : ℕ) : ℤ) := by
    simp only [pyNorm]
    rw [if_pos (by omega)]
    omega
  simp only [pyIndex, hlen, hnorm]
  rw [if_pos (by constructor <;> omega)]
  have htn : (((steps + 1 - k : ℕ) : ℤ)).toNat = steps + 1 - k := by omega
  rw [htn]
  have hget : (seriesOf m n steps).get? (steps + 1 - k) =
      some ((seriesOf m n steps).get ⟨steps + 1 - k, by omega⟩) :=
    List.get?_eq_get (by omega)
  rw [hget, seriesOf_get m n steps (steps + 1 - k) (by omega)]

/-- C7 witness: in the §8 scenario run for 5 steps, the series has length 6
and index `-1` yields the value at `t = 5` (namely 17). -/
theorem c7_negative_indexing_witness :
    (seriesOf c1Model "level" 5).length = 5 + 1 ∧
    pyIndex (seriesOf c1Model "level" 5) (-(1 : ℕ)) =
      some (valueAt c1Model "level" (5 + 1 - 1)) :=
  c7_negative_indexing c1Model "level" 5 1 (by decide) (by decide)

/-- The reference names read by an expression — the dependency edges
`A → B` meaning "A's equation reads B". -/
def Expr.deps : Expr → List String
  | .const _ => []
  | .ref n => [n]
  | .time => []
  | .add a b => a.deps ++ b.deps
  | .sub a b => a.deps ++ b.deps
  | .mul a b => a.deps ++ b.deps
  | .minE a b => a.deps ++ b.deps
  | .maxE a b => a.deps ++ b.deps
  | .pulse a b => a.deps ++ b.deps

/-- Whether a reference is a Stock. -/
def Ref.isStock (r : Ref) : Bool :=
  match r.kind with
  | .stock _ _ _ => true
  | _ => false

/-- All names a reference reads when it is evaluated: its equation's reads
plus, for a Flow, the reads of its clamp bound expressions. -/
def Ref.deps (r : Ref) : List String :=
  r.eq.deps ++
    (match r.kind with
      | .flow lo hi =>
          (match lo with
            | some e => e.deps
            | none => []) ++
          (match hi with
            | some e => e.deps
            | none => [])
      | _ => [])

/-- Whether `n` names a Stock of the model. -/
def Model.isStockName (m : Model) (n : String) : Bool :=
  m.refs.any (fun r => r.name = n && r.isStock)

/-- The non-Stock references of the model, in declaration order — the ones
the resolver must place in an evaluation order. -/
def Model.nonStockRefs (m : Model) : List Ref :=
  m.refs.filter (fun r => !r.isStock)

/-- The dependencies of the reference registered under a name. -/
def depsOfName (m : Model) (n : String) : List String :=
  match m.findRef n with
  | some r => r.deps
  | none => []

/-- Modelled from the spec (§4.3): a read of `d` is satisfied if `d` is a
Stock (whose value is carried over from the previous step, never recomputed
within the step) or if `d` has already been placed in the order. -/
def depReady (m : Model) (resolved : List String) (d : String) : Bool :=
  m.isStockName d || resolved.contains d

/-- A reference can be placed next when all its reads are satisfied. -/
def refReady (m : Model) (resolved : List String) (r : Ref) : Bool :=
  r.deps.all (depReady m resolved)

/-- Modelled from the spec (§4.3): round-based topological ordering.  Each
round moves, in declaration order, every pending reference whose reads are
satisfied; if a round makes no progress the remaining references are
reported as a definition error, by qualified name. -/
def resolveAux (m : Model) : ℕ → List String → List Ref →
    Except (List String) (List String)
  | 0, resolved, pending =>
      if pending.isEmpty then .ok resolved else .error (pending.map Ref.name)
  | fuel + 1, resolved, pending =>
      if pending.isEmpty then .ok resolved
      else if (pending.filter (refReady m resolved)).isEmpty then
        .error (pending.map Ref.name)
      else
        resolveAux m fuel
          (resolved ++ (pending.filter (refReady m resolved)).map Ref.name)
          (pending.filter (fun r => !refReady m resolved r))

/-- Modelled from the spec (§4.3): produce the evaluation order of every
non-Stock reference for a single time step, or a definition error naming the
references that cannot be ordered.  Runs before any evaluation (fails
fast). -/
def Model.resolve (m : Model) : Except (List String) (List String) :=
  resolveAux m m.nonStockRefs.length [] m.nonStockRefs

/-- The model has well-formed structure: reference names are unique, and
every name read by a reference is itself registered. -/
def Model.WF (m : Model) : Prop :=
  (m.refs.map Ref.name).Nodup ∧
    ∀ r ∈ m.refs, ∀ d ∈ r.deps, ∃ r' ∈ m.refs, r'.name = d

/-- A genuine dependency cycle among non-Stock references: a nonempty list of
registered non-Stock names, each reading the next, the last reading the
first.  (A cycle passing through a Stock is not of this form: the Stock-value
carry-over breaks it.) -/
def IsNonStockCycle (m : Model) (c : List String) : Prop :=
  c ≠ [] ∧
  (∀ n ∈ c, ∃ r, m.findRef n = some r ∧ r.isStock = false) ∧
  List.Chain' (fun a b => b ∈ depsOfName m a) c ∧
  (∀ a b, c.head? = some a → c.getLast? = some b → a ∈ depsOfName m b)

/-- In a list of references with distinct names, name lookup finds exactly
the member with that name. -/
theorem find_name_of_mem (l : List Ref) (r : Ref) (hr : r ∈ l)
    (hnd : (l.map Ref.name).Nodup) :
    l.find? (fun x => x.name = r.name) = some r := by
  induction l with
  | nil => cases hr
  | cons a l ih =>
    rcases List.mem_cons.mp hr with rfl | hr'
    · simp [List.find?]
    · rw [List.map_cons] at hnd
      have hnd' := List.nodup_cons.mp hnd
      have hne : ¬ (a.name = r.name) := by
        intro he
        exact hnd'.1 (he ▸ List.mem_map_of_mem Ref.name hr')
      rw [List.find?_cons_of_neg _ (by simpa using hne)]
      exact ih hr' hnd'.2

/-- With unique names, `findRef` returns each registered reference. -/
theorem findRef_of_mem (m : Model) (r : Ref) (hr : r ∈ m.refs)
    (hnd : (m.refs.map Ref.name).Nodup) :
    m.findRef r.name = some r :=
  find_name_of_mem m.refs r hr hnd

/-- What a successful `findRef` guarantees. -/
theorem findRef_mem (m : Model) (n : String) (r : Ref)
    (h : m.findRef n = some r) : r ∈ m.refs ∧ r.name = n := by
  refine ⟨List.mem_of_find?_eq_some h, ?_⟩
  have := List.find?_some h
  simpa using this

/-- With unique names, a name registered to a non-Stock is not a Stock
name. -/
theorem isStockName_eq_false (m : Model) (n : String) (r : Ref)
    (hnd : (m.refs.map Ref.name).Nodup)
    (hf : m.findRef n = some r) (hs : r.isStock = false) :
    m.isStockName n = false := by
  obtain ⟨hmem, hname⟩ := findRef_mem m n r hf
  rw [Model.isStockName]
  rw [List.any_eq_false]
  intro x hx
  simp only [Bool.and_eq_true, decide_eq_true_eq, not_and]
  intro hxn
  have : x = r := List.inj_on_of_nodup_map hnd hx hmem (by rw [hxn, hname])
  subst this
  simp [hs]

/-- A true `isStockName` exhibits a registered Stock with that name. -/
theorem isStockName_spec (m : Model) (n : String)
    (h : m.isStockName n = true) :
    ∃ r ∈ m.refs, r.name = n ∧ r.isStock = true := by
  rw [Model.isStockName, List.any_eq_true] at h
  obtain ⟨x, hx, hp⟩ := h
  simp only [Bool.and_eq_true, decide_eq_true_eq] at hp
  exact ⟨x, hx, hp.1, hp.2⟩

/-- Every member of a genuine non-Stock cycle reads another member: its
successor along the cycle (the last member reads the first). -/
theorem cycle_succ (m : Model) (c : List String) (hc : IsNonStockCycle m c) :
    ∀ n ∈ c, ∃ n' ∈ c, n' ∈ depsOfName m n := by
  obtain ⟨hne, _, hchain, hwrap⟩ := hc
  intro n hn
  obtain ⟨i, hgi⟩ := List.mem_iff_get.mp hn
  by_cases hlast : (i : ℕ) < c.length - 1
  · refine ⟨c.get ⟨(i : ℕ) + 1, by omega⟩, List.get_mem c _ _, ?_⟩
    have hstep := (List.chain'_iff_get.mp hchain) (i : ℕ) hlast
    rw [← hgi]
    exact hstep
  · have hi' : (i : ℕ) = c.length - 1 := by
      have := i.isLt
      omega
    rcases c with _ | ⟨x, rest⟩
    · cases hne rfl
    · refine ⟨x, List.mem_cons_self x rest, ?_⟩
      have hlastval : (x :: rest).get i = (x :: rest).getLast (by simp) := by
        rw [show i = ⟨(x :: rest).length - 1, by simp⟩ from Fin.ext (by simpa using hi')]
        exact List.get_length_sub_one _
      have hg : (x :: rest).getLast? = some ((x :: rest).getLast (by simp)) :=
        List.getLast?_eq_getLast _ _
      have := hwrap x ((x :: rest).getLast (by simp)) rfl hg
      rw [← hgi, hlastval]
      exact this

/-- A reference in `pending` whose name lies on a genuine non-Stock cycle is
never ready while no cycle member has been resolved. -/
theorem cycle_member_not_ready (m : Model) (c : List String)
    (hnd : (m.refs.map Ref.name).Nodup)
    (hsucc : ∀ n ∈ c, ∃ n' ∈ c, n' ∈ depsOfName m n)
    (hnonstock : ∀ n ∈ c, ∃ r, m.findRef n = some r ∧ r.isStock = false)
    (resolved : List String) (hres : ∀ n ∈ c, n ∉ resolved)
    (r : Ref) (hrm : r ∈ m.refs) (hrc : r.name ∈ c) :
    refReady m resolved r = false := by
  have hfind : m.findRef r.name = some r := findRef_of_mem m r hrm hnd
  obtain ⟨n', hn'c, hn'dep⟩ := hsucc r.name hrc
  rw [depsOfName, hfind] at hn'dep
  obtain ⟨r', hfr', hsr'⟩ := hnonstock n' hn'c
  have hstock : m.isStockName n' = false :=
    isStockName_eq_false m n' r' hnd hfr' hsr'
  have hnres : n' ∉ resolved := hres n' hn'c
  have hdr : depReady m resolved n' = false := by
    rw [depReady, hstock]
    simpa using hnres
  rw [Bool.eq_false_iff]
  intro hall
  rw [refReady, List.all_eq_true] at hall
  have := hall n' hn'dep
  rw [hdr] at this
  cases this

/-- While every cycle member remains pending and unresolved, resolution can
only end in an error that names all of them. -/
theorem resolveAux_cycle (m : Model) (c : List String)
    (hnd : (m.refs.map Ref.name).Nodup)
    (hsucc : ∀ n ∈ c, ∃ n' ∈ c, n' ∈ depsOfName m n)
    (hnonstock : ∀ n ∈ c, ∃ r, m.findRef n = some r ∧ r.isStock = false)
    (n0 : String) (hn0 : n0 ∈ c) :
    ∀ (fuel : ℕ) (resolved : List String) (pending : List Ref),
      pending.Sublist m.nonStockRefs →
      (∀ n ∈ c, n ∉ resolved) →
      (∀ n ∈ c, ∃ r ∈ pending, r.name = n) →
      ∃ E, resolveAux m fuel resolved pending = .error E ∧ ∀ n ∈ c, n ∈ E := by
  intro fuel
  induction fuel with
  | zero =>
    intro resolved pending hsub hres hpend
    have hpne : ¬ (pending.isEmpty = true) := by
      obtain ⟨r, hr, _⟩ := hpend n0 hn0
      simp only [List.isEmpty_iff]
      intro h
      rw [h] at hr
      cases hr
    refine ⟨pending.map Ref.name, ?_, ?_⟩
    · rw [resolveAux, if_neg hpne]
    · intro n hn
      obtain ⟨r, hr, hrn⟩ := hpend n hn
      exact hrn ▸ List.mem_map_of_mem Ref.name hr
  | succ fuel ih =>
    intro resolved pending hsub hres hpend
    have hpne : ¬ (pending.isEmpty = true) := by
      obtain ⟨r, hr, _⟩ := hpend n0 hn0
      simp only [List.isEmpty_iff]
      intro h
      rw [h] at hr
      cases hr
    have hmemrefs : ∀ r ∈ pending, r ∈ m.refs := by
      intro r hr
      exact (List.mem_filter.mp (hsub.subset hr)).1
    have hnotready : ∀ r ∈ pending, r.name ∈ c →
        refReady m resolved r = false := by
      intro r hrp hrc
      exact cycle_member_not_ready m c hnd hsucc hnonstock resolved hres r
        (hmemrefs r hrp) hrc
    by_cases hready : ((pending.filter (refReady m resolved)).isEmpty = true)
    · refine ⟨pending.map Ref.name, ?_, ?_⟩
      · rw [resolveAux, if_neg hpne, if_pos hready]
      · intro n hn
        obtain ⟨r, hr, hrn⟩ := hpend n hn
        exact hrn ▸ List.mem_map_of_mem Ref.name hr
    · rw [resolveAux, if_neg hpne, if_neg hready]
      apply ih
      · exact (List.filter_sublist pending).trans hsub
      · intro n hn
        rw [List.mem_append]
        rintro (h | h)
        · exact hres n hn h
        · obtain ⟨r', hr', hrn'⟩ := List.mem_map.mp h
          have hr'p := (List.mem_filter.mp hr').1
          have hr'ready := (List.mem_filter.mp hr').2
          have := hnotready r' hr'p (hrn' ▸ hn)
          rw [this] at hr'ready
          cases hr'ready
      · intro n hn
        obtain ⟨r, hr, hrn⟩ := hpend n hn
        refine ⟨r, List.mem_filter.mpr ⟨hr, ?_⟩, hrn⟩
        rw [hnotready r hr (hrn ▸ hn)]
        rfl

/-- A genuine non-Stock cycle makes resolution fail with an error naming
every cycle member. -/
theorem resolve_cycle_error (m : Model) (c : List String)
    (hnd : (m.refs.map Ref.name).Nodup) (hc : IsNonStockCycle m c) :
    ∃ E, m.resolve = .error E ∧ ∀ n ∈ c, n ∈ E := by
  obtain ⟨n0, hn0⟩ := List.exists_mem_of_ne_nil c hc.1
  apply resolveAux_cycle m c hnd (cycle_succ m c hc) hc.2.1 n0 hn0
  · exact List.Sublist.refl _
  · intro n hn
    exact List.not_mem_nil n
  · intro n hn
    obtain ⟨r, hfr, hsr⟩ := hc.2.1 n hn
    obtain ⟨hmem, hname⟩ := findRef_mem m n r hfr
    refine ⟨r, List.mem_filter.mpr ⟨hmem, ?_⟩, hname⟩
    rw [hsr]
    rfl

/-- If a round makes no progress on a nonempty pending set, the model
contains a genuine non-Stock cycle: every stuck reference reads some other
stuck reference, and following those reads inside the finite pending set
must eventually close a loop. -/
theorem exists_cycle_of_stuck (m : Model) (hwf : m.WF)
    (resolved : List String) (pending : List Ref)
    (hsub : pending.Sublist m.nonStockRefs) (hne : pending ≠ [])
    (hcover : ∀ r ∈ m.nonStockRefs, r.name ∈ resolved ∨ r ∈ pending)
    (hstuck : ∀ r ∈ pending, refReady m resolved r = false) :
    ∃ c, IsNonStockCycle m c := by
  have hmemrefs : ∀ r ∈ pending, r ∈ m.refs := by
    intro r hr
    exact (List.mem_filter.mp (hsub.subset hr)).1
  have hnonstock : ∀ r ∈ pending, r.isStock = false := by
    intro r hr
    have := (List.mem_filter.mp (hsub.subset hr)).2
    simpa using this
  -- every stuck reference reads another stuck reference
  have hstep : ∀ r ∈ pending, ∃ r', r' ∈ pending ∧ r'.name ∈ r.deps := by
    intro r hr
    have hnr := hstuck r hr
    rw [refReady, List.all_eq_false] at hnr
    obtain ⟨d, hd, hdp⟩ := hnr
    rw [Bool.not_eq_true] at hdp
    rw [depReady] at hdp
    obtain ⟨hdstock, hdcont⟩ := Bool.or_eq_false_iff.mp hdp
    have hdres : d ∉ resolved := by
      intro hmem
      rw [List.contains_eq_any_beq] at hdcont
      rw [List.any_eq_false] at hdcont
      exact hdcont d hmem (by simp)
    obtain ⟨r', hr'm, hr'name⟩ := hwf.2 r (hmemrefs r hr) d hd
    have hr'ns : r'.isStock = false := by
      rw [Bool.eq_false_iff]
      intro hst
      have : m.isStockName d = true := by
        rw [Model.isStockName, List.any_eq_true]
        exact ⟨r', hr'm, by simp [hr'name, hst]⟩
      rw [this] at hdstock
      cases hdstock
    have hr'nsmem : r' ∈ m.nonStockRefs :=
      List.mem_filter.mpr ⟨hr'm, by rw [hr'ns]; rfl⟩
    rcases hcover r' hr'nsmem with hcase | hcase
    · exact absurd (hr'name ▸ hcase) hdres
    · exact ⟨r', hcase, hr'name ▸ hd⟩
  -- a total choice function for the successor
  have hstep' : ∀ r, ∃ r', r ∈ pending → (r' ∈ pending ∧ r'.name ∈ r.deps) := by
    intro r
    by_cases h : r ∈ pending
    · obtain ⟨r', h1, h2⟩ := hstep r h
      exact ⟨r', fun _ => ⟨h1, h2⟩⟩
    · exact ⟨r, fun hh => absurd hh h⟩
  obtain ⟨f, hf⟩ := Classical.axiomOfChoice hstep'
  -- iterate the successor from any starting point
  have hg : ∀ k : ℕ, f^[k] (pending.head hne) ∈ pending := by
    intro k
    induction k with
    | zero => exact List.head_mem hne
    | succ k ihk =>
      rw [Function.iterate_succ_apply']
      exact (hf (f^[k] (pending.head hne)) ihk).1
  have hgstep : ∀ k : ℕ,
      (f^[k + 1] (pending.head hne)).name ∈ (f^[k] (pending.head hne)).deps := by
    intro k
    rw [Function.iterate_succ_apply']
    exact (hf (f^[k] (pending.head hne)) (hg k)).2
  -- two iterates collide inside the finite pending set
  have hcard : pending.toFinset.card < (Finset.range (pending.length + 1)).card := by
    rw [Finset.card_range]
    exact lt_of_le_of_lt (List.toFinset_card_le pending) (by omega)
  have hmapsto : ∀ k ∈ Finset.range (pending.length + 1),
      f^[k] (pending.head hne) ∈ pending.toFinset := by
    intro k _
    exact List.mem_toFinset.mpr (hg k)
  obtain ⟨a, _, b, _, hab, heqab⟩ :=
    Finset.exists_ne_map_eq_of_card_lt_of_maps_to hcard hmapsto
  obtain ⟨a, b, hlt, heq⟩ :
      ∃ a b : ℕ, a < b ∧ f^[a] (pending.head hne) = f^[b] (pending.head hne) := by
    rcases lt_or_gt_of_ne hab with h | h
    · exact ⟨a, b, h, heqab⟩
    · exact ⟨b, a, h, heqab.symm⟩
  -- the loop between the two collisions is a genuine non-Stock cycle
  refine ⟨(List.range (b - a)).map (fun j => (f^[a + j] (pending.head hne)).name), ?_, ?_, ?_, ?_⟩
  · have : 0 < b - a := by omega
    intro hnil
    rw [List.map_eq_nil_iff, List.range_eq_nil] at hnil
    omega
  · intro n hn
    obtain ⟨j, _, hj⟩ := List.mem_map.mp hn
    refine ⟨f^[a + j] (pending.head hne), ?_, hnonstock _ (hg _)⟩
    rw [← hj]
    exact findRef_of_mem m _ (hmemrefs _ (hg _)) hwf.1
  · rw [List.chain'_iff_get]
    intro i hi
    simp only [List.length_map, List.length_range] at hi
    have h1 : ((List.range (b - a)).map
        (fun j => (f^[a + j] (pending.head hne)).name)).get
          ⟨i, by simp; omega⟩ = (f^[a + i] (pending.head hne)).name := by
      simp
    have h2 : ((List.range (b - a)).map
        (fun j => (f^[a + j] (pending.head hne)).name)).get
          ⟨i + 1, by simp; omega⟩ = (f^[a + (i + 1)] (pending.head hne)).name := by
      simp
    rw [h1, h2]
    rw [depsOfName, findRef_of_mem m _ (hmemrefs _ (hg _)) hwf.1]
    rw [show a + (i + 1) = (a + i) + 1 from by omega]
    exact hgstep (a + i)
  · intro x y hx hy
    have hlen : ((List.range (b - a)).map
        (fun j => (f^[a + j] (pending.head hne)).name)).length = b - a := by
      simp
    have hnnil : ((List.range (b - a)).map
        (fun j => (f^[a + j] (pending.head hne)).name)) ≠ [] := by
      intro hnil
      rw [List.map_eq_nil_iff, List.range_eq_nil] at hnil
      omega
    rw [List.head?_eq_head hnnil] at hx
    rw [List.getLast?_eq_getLast _ hnnil] at hy
    have hxv : x = (f^[a + 0] (pending.head hne)).name := by
      have := List.head_eq_getElem_zero hnnil
      rw [this] at hx
      have hx' := Option.some.inj hx
      rw [← hx']
      simp
    have hyv : y = (f^[a + (b - a - 1)] (pending.head hne)).name := by
      have hgl := (List.get_length_sub_one
        (l := (List.range (b - a)).map
          (fun j => (f^[a + j] (pending.head hne)).name)) (by rw [hlen]; omega)).symm
      rw [show ((List.range (b - a)).map
            (fun j => (f^[a + j] (pending.head hne)).name)).getLast
              (by rintro h; exact hnnil h) =
          ((List.range (b - a)).map
            (fun j => (f^[a + j] (pending.head hne)).name)).getLast hnnil from rfl] at hgl
      rw [hgl] at hy
      have hy' := Option.some.inj hy
      rw [← hy']
      simp [hlen]
  -- x = name of g a; y = name of g (b-1); f (g (b-1)) = g b = g a
    rw [hxv, hyv]
    rw [depsOfName, findRef_of_mem m _ (hmemrefs _ (hg _)) hwf.1]
    have hstep1 := hgstep (a + (b - a - 1))
    rw [show a + (b - a - 1) + 1 = b from by omega] at hstep1
    rw [← heq] at hstep1
    simpa using hstep1

/-- With enough fuel and no genuine non-Stock cycle, resolution always
succeeds. -/
theorem resolveAux_ok (m : Model) (hwf : m.WF)
    (hnocycle : ∀ c, ¬ IsNonStockCycle m c) :
    ∀ (fuel : ℕ) (resolved : List String) (pending : List Ref),
      pending.Sublist m.nonStockRefs →
      pending.length ≤ fuel →
      (∀ r ∈ m.nonStockRefs, r.name ∈ resolved ∨ r ∈ pending) →
      ∃ ord, resolveAux m fuel resolved pending = .ok ord := by
  intro fuel
  induction fuel with
  | zero =>
    intro resolved pending hsub hlen hcover
    have hnil : pending = [] := List.length_eq_zero.mp (by omega)
    subst hnil
    exact ⟨resolved, by rw [resolveAux]; rfl⟩
  | succ fuel ih =>
    intro resolved pending hsub hlen hcover
    by_cases hpe : (pending.isEmpty = true)
    · exact ⟨resolved, by rw [resolveAux, if_pos hpe]⟩
    · have hne : pending ≠ [] := by
        simpa [List.isEmpty_iff] using hpe
      by_cases hready : ((pending.filter (refReady m resolved)).isEmpty = true)
      · exfalso
        have hstuck : ∀ r ∈ pending, refReady m resolved r = false := by
          have hnilf : pending.filter (refReady m resolved) = [] := by
            simpa [List.isEmpty_iff] using hready
          rw [List.filter_eq_nil_iff] at hnilf
          intro r hr
          have := hnilf r hr
          rw [Bool.not_eq_true] at this
          exact this
        obtain ⟨c, hc⟩ :=
          exists_cycle_of_stuck m hwf resolved pending hsub hne hcover hstuck
        exact hnocycle c hc
      · rw [resolveAux, if_neg hpe, if_neg hready]
        have hlensplit :
            (pending.filter (refReady m resolved)).length +
              (pending.filter (fun r => !refReady m resolved r)).length =
              pending.length := by
          have hperm := List.filter_append_perm (refReady m resolved) pending
          have := hperm.length_eq
          simpa using this
        have hreadypos : 0 < (pending.filter (refReady m resolved)).length := by
          rcases Nat.eq_zero_or_pos (pending.filter (refReady m resolved)).length
            with h0 | h
          · exfalso
            apply hready
            rw [List.isEmpty_iff]
            exact List.length_eq_zero.mp h0
          · exact h
        apply ih
        · exact (List.filter_sublist pending).trans hsub
        · omega
        · intro r hr
          rcases hcover r hr with hcase | hcase
          · exact Or.inl (List.mem_append.mpr (Or.inl hcase))
          · by_cases hrdy : refReady m resolved r = true
            · refine Or.inl (List.mem_append.mpr (Or.inr ?_))
              exact List.mem_map_of_mem Ref.name
                (List.mem_filter.mpr ⟨hcase, hrdy⟩)
            · refine Or.inr (List.mem_filter.mpr ⟨hcase, ?_⟩)
              have hfalse : refReady m resolved r = false := Bool.eq_false_iff.mpr hrdy
              rw [hfalse]
              rfl

/-- If every cycle of the dependency graph passes through a Stock (so no
genuine non-Stock cycle exists), resolution succeeds. -/
theorem resolve_ok_of_no_cycle (m : Model) (hwf : m.WF)
    (hnocycle : ∀ c, ¬ IsNonStockCycle m c) :
    ∃ ord, m.resolve = .ok ord := by
  apply resolveAux_ok m hwf hnocycle m.nonStockRefs.length [] m.nonStockRefs
  · exact List.Sublist.refl _
  · exact Nat.le_refl _
  · intro r hr
    exact Or.inr hr

/-- The spec's cycle example: two Variables each defined as a function of the
other. -/
def c4CycleModel : Model :=
  { refs :=
      [ { name := "a", kind := .var, eq := .ref "b" },
        { name := "b", kind := .var, eq := .ref "a" } ] }

/-- C4: dependency resolution (i) fails on every well-formed model containing
a genuine non-Stock cycle, with a definition error naming every cycle member
by qualified name (the resolver runs before any evaluation, so it fails
fast); (ii) on the two-mutually-recursive-Variables example it errors naming
both; (iii) on every well-formed model whose only cycles pass through Stocks
it succeeds; and (iv) in particular the §8 stock-feedback model — a Flow
reading the Stock it feeds — resolves without error. -/
theorem c4_cycle_detection :
    (∀ (m : Model) (c : List String), m.WF → IsNonStockCycle m c →
        ∃ E, m.resolve = .error E ∧ ∀ n ∈ c, n ∈ E) ∧
    (∃ E, c4CycleModel.resolve = .error E ∧ "a" ∈ E ∧ "b" ∈ E) ∧
    (∀ m : Model, m.WF → (∀ c, ¬ IsNonStockCycle m c) →
        ∃ ord, m.resolve = .ok ord) ∧
    c1Model.resolve = .ok ["in", "out"] := by
  refine ⟨?_, ?_, ?_, ?_⟩
  · intro m c hwf hc
    exact resolve_cycle_error m c hwf.1 hc
  · exact ⟨["a", "b"], rfl, by decide, by decide⟩
  · intro m hwf hnc
    exact resolve_ok_of_no_cycle m hwf hnc
  · rfl

/-- C4 witness: the general cycle theorem applied to the concrete
two-Variable cycle model. -/
theorem c4_cycle_detection_witness :
    ∃ E, c4CycleModel.resolve = .error E ∧ ∀ n ∈ ["a", "b"], n ∈ E := by
  apply c4_cycle_detection.1 c4CycleModel ["a", "b"]
  · exact ⟨by decide, by decide⟩
  · refine ⟨by decide, ?_, ?_, ?_⟩
    · intro n hn
      rcases List.mem_cons.mp hn with rfl | hn'
      · exact ⟨{ name := "a", kind := .var, eq := .ref "b" }, by decide, by decide⟩
      rcases List.mem_cons.mp hn' with rfl | hn''
      · exact ⟨{ name := "b", kind := .var, eq := .ref "a" }, by decide, by decide⟩
      · cases hn''
    · rw [List.chain'_cons]
      exact ⟨by decide, List.chain'_singleton _⟩
    · intro x y hx hy
      have hx' : x = "a" := by
        simpa using hx.symm
      have hy' : y = "b" := by
        simpa using hy.symm
      subst hx'
      subst hy'
      decide

/-- Membership and the boolean `contains` agree. -/
theorem mem_of_contains_eq_true (l : List String) (d : String)
    (h : l.contains d = true) : d ∈ l := by
  rw [List.contains_eq_any_beq, List.any_eq_true] at h
  obtain ⟨x, hx, hbeq⟩ := h
  have hdx : d = x := by simpa using hbeq
  rw [hdx]
  exact hx

/-- An evaluation order is topologically sound: every dependency of an entry
is either a Stock (carried over) or occurs strictly earlier in the order. -/
def TopoOrdered (m : Model) (l : List String) : Prop :=
  ∀ l₁ n l₂, l = l₁ ++ n :: l₂ →
    ∀ d ∈ depsOfName m n, m.isStockName d = true ∨ d ∈ l₁

/-- Appending a block whose members only depend on Stocks or on the existing
order preserves topological soundness. -/
theorem topoOrdered_append (m : Model) (A B : List String)
    (hA : TopoOrdered m A)
    (hB : ∀ n ∈ B, ∀ d ∈ depsOfName m n, m.isStockName d = true ∨ d ∈ A) :
    TopoOrdered m (A ++ B) := by
  intro l₁ n l₂ heq d hd
  rw [List.append_eq_append_iff] at heq
  rcases heq with ⟨e, he1, he2⟩ | ⟨e, he1, he2⟩
  · -- the split point lies inside B
    have hnB : n ∈ B := by
      rw [he2]
      exact List.mem_append.mpr (Or.inr (List.mem_cons_self n l₂))
    rcases hB n hnB d hd with h | h
    · exact Or.inl h
    · right
      rw [he1]
      exact List.mem_append.mpr (Or.inl h)
  · -- the split point lies inside A (or exactly at the boundary)
    rcases e with _ | ⟨n', e'⟩
    · have hA' : A = l₁ := by simpa using he1
      have hB' : B = n :: l₂ := by simpa using he2.symm
      have hnB : n ∈ B := hB' ▸ List.mem_cons_self n l₂
      rcases hB n hnB d hd with h | h
      · exact Or.inl h
      · exact Or.inr (hA' ▸ h)
    · have hne : n' = n ∧ e' ++ B = l₂ := by
        have := he2.symm
        rw [List.cons_append] at this
        exact ⟨(List.cons.injEq _ _ _ _).mp this |>.1,
               (List.cons.injEq _ _ _ _).mp this |>.2⟩
      have hsplit : A = l₁ ++ n :: e' := by
        rw [he1, hne.1]
      exact hA l₁ n e' hsplit d hd

/-- The empty order is topologically sound. -/
theorem topoOrdered_nil (m : Model) : TopoOrdered m [] := by
  intro l₁ n l₂ heq
  exact absurd heq.symm (List.append_ne_nil_of_right_ne_nil l₁ (by simp))

/-- Any successful resolution extends a topologically sound prefix into a
topologically sound total order: each round only admits references all of
whose reads are Stocks or already-ordered names. -/
theorem resolveAux_topo (m : Model) (hnd : (m.refs.map Ref.name).Nodup) :
    ∀ (fuel : ℕ) (resolved : List String) (pending : List Ref)
      (ord : List String),
      pending.Sublist m.nonStockRefs →
      TopoOrdered m resolved →
      resolveAux m fuel resolved pending = .ok ord →
      TopoOrdered m ord := by
  intro fuel
  induction fuel with
  | zero =>
    intro resolved pending ord hsub htopo hok
    rw [resolveAux] at hok
    by_cases hpe : (pending.isEmpty = true)
    · rw [if_pos hpe] at hok
      exact (Except.ok.inj hok) ▸ htopo
    · rw [if_neg hpe] at hok
      cases hok
  | succ fuel ih =>
    intro resolved pending ord hsub htopo hok
    rw [resolveAux] at hok
    by_cases hpe : (pending.isEmpty = true)
    · rw [if_pos hpe] at hok
      exact (Except.ok.inj hok) ▸ htopo
    · rw [if_neg hpe] at hok
      by_cases hready : ((pending.filter (refReady m resolved)).isEmpty = true)
      · rw [if_pos hready] at hok
        cases hok
      · rw [if_neg hready] at hok
        apply ih _ _ ord ((List.filter_sublist pending).trans hsub) _ hok
        apply topoOrdered_append m _ _ htopo
        intro n hn d hd
        obtain ⟨r, hrf, hrname⟩ := List.mem_map.mp hn
        have hrp := (List.mem_filter.mp hrf).1
        have hrready := (List.mem_filter.mp hrf).2
        have hrm : r ∈ m.refs := (List.mem_filter.mp (hsub.subset hrp)).1
        have hfind : m.findRef n = some r := hrname ▸ findRef_of_mem m r hrm hnd
        rw [depsOfName, hfind] at hd
        rw [refReady, List.all_eq_true] at hrready
        have := hrready d hd
        rw [depReady] at this
        rcases Bool.or_eq_true_iff.mp this with h | h
        · exact Or.inl h
        · exact Or.inr (mem_of_contains_eq_true resolved d h)

/-- A successful resolution orders exactly the non-Stock references: the
output is a permutation of the pending names appended to the prefix. -/
theorem resolveAux_perm (m : Model) :
    ∀ (fuel : ℕ) (resolved : List String) (pending : List Ref)
      (ord : List String),
      resolveAux m fuel resolved pending = .ok ord →
      List.Perm ord (resolved ++ pending.map Ref.name) := by
  intro fuel
  induction fuel with
  | zero =>
    intro resolved pending ord hok
    rw [resolveAux] at hok
    by_cases hpe : (pending.isEmpty = true)
    · rw [if_pos hpe] at hok
      have : pending = [] := List.isEmpty_iff.mp hpe
      subst this
      rw [← Except.ok.inj hok]
      simp
    · rw [if_neg hpe] at hok
      cases hok
  | succ fuel ih =>
    intro resolved pending ord hok
    rw [resolveAux] at hok
    by_cases hpe : (pending.isEmpty = true)
    · rw [if_pos hpe] at hok
      have : pending = [] := List.isEmpty_iff.mp hpe
      subst this
      rw [← Except.ok.inj hok]
      simp
    · rw [if_neg hpe] at hok
      by_cases hready : ((pending.filter (refReady m resolved)).isEmpty = true)
      · rw [if_pos hready] at hok
        cases hok
      · rw [if_neg hready] at hok
        have hperm := ih _ _ ord hok
        have hsplit : List.Perm
            ((pending.filter (refReady m resolved)).map Ref.name ++
              (pending.filter (fun r => !refReady m resolved r)).map Ref.name)
            (pending.map Ref.name) := by
          rw [← List.map_append]
          exact (List.filter_append_perm (refReady m resolved) pending).map Ref.name
        refine hperm.trans ?_
        rw [List.append_assoc]
        exact List.Perm.append_left resolved hsplit

/-- C5: simulation and resolution are deterministic functions of the model
state — two runs over identical model state produce identical per-Reference
time series and the identical evaluation order.  The resolver's order is
canonical for a fixed graph: a successful resolution is a permutation of the
non-Stock references (each placed exactly once, rounds taken in declaration
order) and is topologically sound, so repeated runs without structural
changes reproduce it exactly. -/
theorem c5_determinism :
    (∀ (m₁ m₂ : Model) (n : String) (steps : ℕ), m₁ = m₂ →
        seriesOf m₁ n steps = seriesOf m₂ n steps) ∧
    (∀ m₁ m₂ : Model, m₁ = m₂ → m₁.resolve = m₂.resolve) ∧
    (∀ (m : Model) (ord : List String), m.resolve = .ok ord →
        List.Perm ord (m.nonStockRefs.map Ref.name)) ∧
    (∀ (m : Model) (ord : List String), (m.refs.map Ref.name).Nodup →
        m.resolve = .ok ord → TopoOrdered m ord) := by
  refine ⟨?_, ?_, ?_, ?_⟩
  · intro m₁ m₂ n steps h
    rw [h]
  · intro m₁ m₂ h
    rw [h]
  · intro m ord hok
    have := resolveAux_perm m m.nonStockRefs.length [] m.nonStockRefs ord hok
    simpa using this
  · intro m ord hnd hok
    exact resolveAux_topo m hnd m.nonStockRefs.length [] m.nonStockRefs ord
      (List.Sublist.refl _) (topoOrdered_nil m) hok

/-- C5 witness: the resolver's order on the §8 scenario is exactly the
declaration order of its two Flows, a permutation of its non-Stock
references. -/
theorem c5_determinism_witness :
    List.Perm ["in", "out"] (c1Model.nonStockRefs.map Ref.name) :=
  c5_determinism.2.2.1 c1Model ["in", "out"] rfl

/-- Modelled from the spec (§6): the tree-shaped record format through which
a Model's structural definition round-trips — atoms are strings and numbers,
composites are pairs (sequences are right-nested pairs ended by `nilR`). -/
inductive Rec where
  | s : String → Rec
  | z : ℤ → Rec
  | nilR : Rec
  | cons : Rec → Rec → Rec
deriving DecidableEq

/-- Serialize an expression tree into the record format. -/
def encExpr : Expr → Rec
  | .const q => .cons (.s "const") (.z q)
  | .ref n => .cons (.s "ref") (.s n)
  | .time => .s "time"
  | .add a b => .cons (.s "add") (.cons (encExpr a) (encExpr b))
  | .sub a b => .cons (.s "sub") (.cons (encExpr a) (encExpr b))
  | .mul a b => .cons (.s "mul") (.cons (encExpr a) (encExpr b))
  | .minE a b => .cons (.s "min") (.cons (encExpr a) (encExpr b))
  | .maxE a b => .cons (.s "max") (.cons (encExpr a) (encExpr b))
  | .pulse a b => .cons (.s "pulse") (.cons (encExpr a) (encExpr b))

/-- Parse an expression tree back from the record format. -/
def decExpr : Rec → Option Expr
  | .s "time" => some .time
  | .cons (.s "const") (.z q) => some (.const q)
  | .cons (.s "ref") (.s n) => some (.ref n)
  | .cons (.s "add") (.cons a b) =>
    match decExpr a, decExpr b with
    | some x, some y => some (.add x y)
    | _, _ => none
  | .cons (.s "sub") (.cons a b) =>
    match decExpr a, decExpr b with
    | some x, some y => some (.sub x y)
    | _, _ => none
  | .cons (.s "mul") (.cons a b) =>
    match decExpr a, decExpr b with
    | some x, some y => some (.mul x y)
    | _, _ => none
  | .cons (.s "min") (.cons a b) =>
    match decExpr a, decExpr b with
    | some x, some y => some (.minE x y)
    | _, _ => none
  | .cons (.s "max") (.cons a b) =>
    match decExpr a, decExpr b with
    | some x, some y => some (.maxE x y)
    | _, _ => none
  | .cons (.s "pulse") (.cons a b) =>
    match decExpr a, decExpr b with
    | some x, some y => some (.pulse x y)
    | _, _ => none
  | _ => none

/-- Parsing inverts serialization on expressions. -/
theorem decExpr_encExpr : ∀ e : Expr, decExpr (encExpr e) = some e := by
  intro e
  induction e with
  | const q => rfl
  | ref n => rfl
  | time => rfl
  | add a b iha ihb => simp only [encExpr, decExpr, iha, ihb]
  | sub a b iha ihb => simp only [encExpr, decExpr, iha, ihb]
  | mul a b iha ihb => simp only [encExpr, decExpr, iha, ihb]
  | minE a b iha ihb => simp only [encExpr, decExpr, iha, ihb]
  | maxE a b iha ihb => simp only [encExpr, decExpr, iha, ihb]
  | pulse a b iha ihb => simp only [encExpr, decExpr, iha, ihb]

/-- Serialize an optional clamp bound. -/
def encOptExpr : Option Expr → Rec
  | none => .s "none"
  | some e => .cons (.s "some") (encExpr e)

/-- Parse an optional clamp bound. -/
def decOptExpr : Rec → Option (Option Expr)
  | .s "none" => some none
  | .cons (.s "some") r =>
    match decExpr r with
    | some e => some (some e)
    | none => none
  | _ => none

/-- Parsing inverts serialization on optional bounds. -/
theorem decOptExpr_encOptExpr : ∀ o : Option Expr,
    decOptExpr (encOptExpr o) = some o := by
  intro o
  cases o with
  | none => rfl
  | some e => simp only [encOptExpr, decOptExpr, decExpr_encExpr]

/-- Serialize a list of names (wiring lists). -/
def encStrList : List String → Rec
  | [] => .nilR
  | x :: xs => .cons (.s x) (encStrList xs)

/-- Parse a list of names. -/
def decStrList : Rec → Option (List String)
  | .nilR => some []
  | .cons (.s x) r =>
    match decStrList r with
    | some xs => some (x :: xs)
    | none => none
  | _ => none

/-- Parsing inverts serialization on name lists. -/
theorem decStrList_encStrList : ∀ l : List String,
    decStrList (encStrList l) = some l := by
  intro l
  induction l with
  | nil => rfl
  | cons x xs ih => simp only [encStrList, decStrList, ih]

/-- Serialize a reference kind, including a Stock's init and inflow/outflow
wiring and a Flow's bounds. -/
def encKind : RKind → Rec
  | .stock i ins outs =>
      .cons (.s "stock") (.cons (.z i) (.cons (encStrList ins) (encStrList outs)))
  | .flow lo hi => .cons (.s "flow") (.cons (encOptExpr lo) (encOptExpr hi))
  | .var => .s "var"

/-- Parse a reference kind. -/
def decKind : Rec → Option RKind
  | .s "var" => some .var
  | .cons (.s "stock") (.cons (.z i) (.cons ins outs)) =>
    match decStrList ins, decStrList outs with
    | some l1, some l2 => some (.stock i l1 l2)
    | _, _ => none
  | .cons (.s "flow") (.cons lo hi) =>
    match decOptExpr lo, decOptExpr hi with
    | some o1, some o2 => some (.flow o1 o2)
    | _, _ => none
  | _ => none

/-- Parsing inverts serialization on kinds. -/
theorem decKind_encKind : ∀ k : RKind, decKind (encKind k) = some k := by
  intro k
  cases k with
  | stock i ins outs =>
    simp only [encKind, decKind, decStrList_encStrList]
  | flow lo hi =>
    simp only [encKind, decKind, decOptExpr_encOptExpr]
  | var => rfl

/-- Serialize a single reference: name, kind (with wiring), equation, doc. -/
def encRef (r : Ref) : Rec :=
  .cons (.s r.name) (.cons (encKind r.kind) (.cons (encExpr r.eq) (.s r.doc)))

/-- Parse a single reference. -/
def decRef : Rec → Option Ref
  | .cons (.s n) (.cons k (.cons e (.s d))) =>
    match decKind k, decExpr e with
    | some kk, some ee => some { name := n, kind := kk, eq := ee, doc := d }
    | _, _ => none
  | _ => none

/-- Parsing inverts serialization on references. -/
theorem decRef_encRef : ∀ r : Ref, decRef (encRef r) = some r := by
  intro r
  simp only [encRef, decRef, decKind_encKind, decExpr_encExpr]

/-- Serialize a reference list. -/
def encRefList : List Ref → Rec
  | [] => .nilR
  | r :: rs => .cons (encRef r) (encRefList rs)

/-- Parse a reference list. -/
def decRefList : Rec → Option (List Ref)
  | .nilR => some []
  | .cons h t =>
    match decRef h, decRefList t with
    | some r, some rs => some (r :: rs)
    | _, _ => none
  | .s _ => none
  | .z _ => none

/-- Parsing inverts serialization on reference lists. -/
theorem decRefList_encRefList : ∀ l : List Ref,
    decRefList (encRefList l) = some l := by
  intro l
  induction l with
  | nil => rfl
  | cons r rs ih => simp only [encRefList, decRefList, decRef_encRef, ih]

/-- Modelled from the spec (§6): serialize a Model's structural definition —
reference names, kinds, stock/flow wiring, equations, docs — into the
tree-shaped record format. -/
def Model.to_dict (m : Model) : Rec :=
  encRefList m.refs

/-- Modelled from the spec (§6): rebuild a Model from its serialized
structural definition. -/
def Model.from_dict (r : Rec) : Option Model :=
  match decRefList r with
  | some refs => some { refs := refs }
  | none => none

/-- C6: `from_dict (to_dict m)` reproduces a graph identical to the original
— same reference names, same stock/flow wiring, same equations — and the
deserialized model records exactly the same time series as the original on
every run. -/
theorem c6_roundtrip (m : Model) :
    Model.from_dict (Model.to_dict m) = some m ∧
    ∀ (m' : Model) (n : String) (steps : ℕ),
      Model.from_dict (Model.to_dict m) = some m' →
      seriesOf m' n steps = seriesOf m n steps := by
  have h : Model.from_dict (Model.to_dict m) = some m := by
    rw [Model.to_dict, Model.from_dict, decRefList_encRefList]
  refine ⟨h, ?_⟩
  intro m' n steps h'
  rw [h] at h'
  rw [Option.some.inj h']

/-- C6 witness: the deserialized §8 scenario records the same level series as
the original. -/
theorem c6_roundtrip_witness :
    seriesOf c1Model "level" 5 = seriesOf c1Model "level" 5 :=
  (c6_roundtrip c1Model).2 c1Model "level" 5 (c6_roundtrip c1Model).1

/-- Stringified run configuration, as stored by `RunRow.__init__`
(`reno/explorer.py`), which maps every config value through `str`. -/
abbrev Config := List (String × String)

/-- A run's trace: per-reference recorded series (the xarray dataset of
`reno/explorer.py`, keyed by qualified reference name). -/
abbrev Trace := List (String × List ℤ)

/-- The observation configurations collected by
`ObservablesList.get_observations` (`reno/explorer.py`). -/
abbrev Obs := List String

/-- From `reno/explorer.py` (`RunRow`): selector row for a specific
simulation run.  `visible` is the param with default `True`
(line 1542), `run_name` defaults to the empty string. -/
structure RunRow where
  run_name : String := ""
  visible : Bool := true
  config : Option Config := none
  trace : Option Trace := none
  observations : Option Obs := none
deriving DecidableEq

/-- From `reno/explorer.py` (`RunsList`): the collection of run rows, in
insertion order. -/
structure RunsList where
  runs : List RunRow := []
deriving DecidableEq

/-- From `reno/explorer.py` (`RunsList.get_selected_runs`): the loop that
appends `(run.run_name, run.config, run.trace)` for every run whose
`visible` flag is set. -/
def selectedLoop : List RunRow → List (String × Option Config × Option Trace)
  | [] => []
  | run :: rest =>
    if run.visible then
      (run.run_name, run.config, run.trace) :: selectedLoop rest
    else
      selectedLoop rest

/-- From `reno/explorer.py` (`RunsList.get_selected_runs`, lines
1737–1745): collect all run rows that are set to display. -/
def RunsList.get_selected_runs (rl : RunsList) :
    List (String × Option Config × Option Trace) :=
  selectedLoop rl.runs

/-- From `reno/explorer.py` (`RunsList.add_run`, lines 1747–1759): create a
new `RunRow` with the passed configuration and data and append it (the
`visible` flag takes its default `True`; the layout refresh and callback
firing have no effect on the stored rows). -/
def RunsList.add_run (rl : RunsList) (config : Option Config)
    (trace : Option Trace) (observations : Option Obs)
    (name : String := "") : RunsList :=
  { rl with
      runs := rl.runs ++
        [{ run_name := name, visible := true, config := config,
           trace := trace, observations := observations }] }

/-- From `reno/explorer.py` (`RunRow._handle_pnl_select_btn_clicked`, lines
1639–1641): a click negates `visible` and fires the selected callbacks with
the new value — the returned boolean is the value every registered callback
receives (`fire_on_selected`, lines 1622–1625). -/
def RunRow.handle_select_btn_clicked (r : RunRow) : RunRow × Bool :=
  ({ r with visible := !r.visible }, !r.visible)

/-- From `reno/explorer.py` (`Explorer`): the state the run entry points
act on — the runs list, the running count of runs (`run_index`), the two run
buttons' loading flags, and the posterior progress bar. -/
structure ExplorerState where
  runs_list : RunsList
  run_index : ℕ
  run_prior_btn_loading : Bool
  run_post_btn_loading : Bool
  progress_visible : Bool
  progress_value : ℤ
  progress_bar_color : String
deriving DecidableEq

/-- From `reno/explorer.py` (`Explorer.set_running`, lines 140–148): set
both run buttons' loading flags. -/
def Explorer.set_running (s : ExplorerState) (running : Bool) : ExplorerState :=
  if running then
    { s with run_prior_btn_loading := true, run_post_btn_loading := true }
  else
    { s with run_prior_btn_loading := false, run_post_btn_loading := false }

/-- From `reno/explorer.py` (`Explorer.run_prior`, lines 150–167):
`set_running(True)`; inside the `try`, run the model (`model.pymc` — its
outcome is the `pymc` argument) and on success read the config, append a run
named `Prior run ({run_index})` and increment `run_index`; on any exception
only notify; finally `set_running(False)` on both paths. -/
def Explorer.run_prior (s : ExplorerState) (pymc : Except String Trace)
    (config : Config) : ExplorerState :=
  match pymc with
  | .ok trace =>
    Explorer.set_running
      { Explorer.set_running s true with
          runs_list := (Explorer.set_running s true).runs_list.add_run
            (some config) (some trace) none
            ("Prior run (" ++ toString s.run_index ++ ")"),
          run_index := s.run_index + 1 }
      false
  | .error _ => Explorer.set_running (Explorer.set_running s true) false

/-- From `reno/explorer.py` (`Explorer.run_posterior`, lines 169–194):
`set_running(True)`; inside the `try`, show the progress bar (`success`
colour, value −1), collect observations, run the model, and on success
append a run named `Posterior run ({run_index})`, increment `run_index` and
hide the progress bar; on any exception turn the bar `danger`; finally
`set_running(False)` on both paths. -/
def Explorer.run_posterior (s : ExplorerState) (pymc : Except String Trace)
    (config : Config) (observations : Obs) : ExplorerState :=
  match pymc with
  | .ok trace =>
    Explorer.set_running
      { Explorer.set_running s true with
          progress_bar_color := "success",
          progress_value := -1,
          runs_list := (Explorer.set_running s true).runs_list.add_run
            (some config) (some trace) (some observations)
            ("Posterior run (" ++ toString s.run_index ++ ")"),
          run_index := s.run_index + 1,
          progress_visible := false }
      false
  | .error _ =>
    Explorer.set_running
      { Explorer.set_running s true with
          progress_bar_color := "danger",
          progress_visible := true,
          progress_value := -1 }
      false

/-- The selection loop keeps exactly the visible rows, in list order. -/
theorem selectedLoop_eq (l : List RunRow) :
    selectedLoop l = (l.filter (fun r => r.visible)).map
      (fun r => (r.run_name, r.config, r.trace)) := by
  induction l with
  | nil => rfl
  | cons run rest ih =>
    by_cases h : run.visible = true
    · rw [selectedLoop, if_pos h, List.filter_cons_of_pos h, List.map_cons, ih]
    · rw [selectedLoop, if_neg h, List.filter_cons_of_neg h, ih]

/-- C9: `get_selected_runs` returns exactly the `(run_name, config, trace)`
triples of the runs whose `visible` flag is `True`, in the order the runs
appear in the list; and since `add_run` appends a row whose `visible` flag
takes its default `True`, the new run's triple is included immediately, at
the end. -/
theorem c9_get_selected_runs (rl : RunsList) (config : Option Config)
    (trace : Option Trace) (obs : Option Obs) (name : String) :
    rl.get_selected_runs = (rl.runs.filter (fun r => r.visible)).map
      (fun r => (r.run_name, r.config, r.trace)) ∧
    (rl.add_run config trace obs name).get_selected_runs =
      rl.get_selected_runs ++ [(name, config, trace)] := by
  constructor
  · exact selectedLoop_eq rl.runs
  · rw [RunsList.get_selected_runs, RunsList.add_run]
    rw [RunsList.get_selected_runs]
    rw [selectedLoop_eq, selectedLoop_eq]
    rw [List.filter_append, List.map_append]
    rfl

/-- C10: a click of the select button negates the row's `visible` flag and
fires the selected callbacks with the new value: two consecutive clicks
restore the row exactly (the toggle is an involution), and the two fired
values are `¬visible` then `visible` — alternating booleans. -/
theorem c10_select_toggle (r : RunRow) :
    (r.handle_select_btn_clicked.1.handle_select_btn_clicked.1 = r) ∧
    (r.handle_select_btn_clicked.2 = !r.visible) ∧
    (r.handle_select_btn_clicked.1.handle_select_btn_clicked.2 = r.visible) := by
  refine ⟨?_, rfl, ?_⟩
  · cases r
    simp [RunRow.handle_select_btn_clicked]
  · cases r
    simp [RunRow.handle_select_btn_clicked]

/-- C8: in `run_prior` and `run_posterior`, if the model run raises, no run
is appended and `run_index` is unchanged, while both run buttons' loading
flags are still reset to `False` (`set_running(False)` executes on both the
success and the failure path); a run row — with the expected name, config
and trace, and `visible` defaulting to `True` — and an incremented
`run_index` are produced exactly on the success path. -/
theorem c8_run_error_handling (s : ExplorerState) (e : String) (tr : Trace)
    (config : Config) (obs : Obs) :
    ((Explorer.run_prior s (.error e) config).runs_list = s.runs_list ∧
      (Explorer.run_prior s (.error e) config).run_index = s.run_index ∧
      (Explorer.run_prior s (.error e) config).run_prior_btn_loading = false ∧
      (Explorer.run_prior s (.error e) config).run_post_btn_loading = false) ∧
    ((Explorer.run_posterior s (.error e) config obs).runs_list = s.runs_list ∧
      (Explorer.run_posterior s (.error e) config obs).run_index = s.run_index ∧
      (Explorer.run_posterior s (.error e) config obs).run_prior_btn_loading
        = false ∧
      (Explorer.run_posterior s (.error e) config obs).run_post_btn_loading
        = false) ∧
    ((Explorer.run_prior s (.ok tr) config).runs_list.runs =
        s.runs_list.runs ++
          [{ run_name := "Prior run (" ++ toString s.run_index ++ ")",
             visible := true, config := some config, trace := some tr,
             observations := none }] ∧
      (Explorer.run_prior s (.ok tr) config).run_index = s.run_index + 1 ∧
      (Explorer.run_prior s (.ok tr) config).run_prior_btn_loading = false ∧
      (Explorer.run_prior s (.ok tr) config).run_post_btn_loading = false) ∧
    ((Explorer.run_posterior s (.ok tr) config obs).runs_list.runs =
        s.runs_list.runs ++
          [{ run_name := "Posterior run (" ++ toString s.run_index ++ ")",
             visible := true, config := some config, trace := some tr,
             observations := some obs }] ∧
      (Explorer.run_posterior s (.ok tr) config obs).run_index
        = s.run_index + 1 ∧
      (Explorer.run_posterior s (.ok tr) config obs).run_prior_btn_loading
        = false ∧
      (Explorer.run_posterior s (.ok tr) config obs).run_post_btn_loading
        = false) := by
  refine ⟨⟨?_, ?_, ?_, ?_⟩, ⟨?_, ?_, ?_, ?_⟩, ⟨?_, ?_, ?_, ?_⟩,
    ⟨?_, ?_, ?_, ?_⟩⟩ <;>
    simp [Explorer.run_prior, Explorer.run_posterior, Explorer.set_running,
      RunsList.add_run]

end Reno
